import Mathlib

/-
Verification development for the chiptools HDL build framework core:
a shallow embedding of the design-unit identity classes and their equality
(src/chiptools/parsers/vhdl.py), the dependency-graph builder and change
scheduler (src/chiptools/parsers/callgraph.py), the incremental build cache
(src/chiptools/core/cache.py) and the compile orchestrator
(src/chiptools/wrappers/simulator.py), together with theorems settling the
stated properties of these components.
-/

/-- Design Unit Identity: one constructor per class of
src/chiptools/parsers/vhdl.py (Entity, Package, Component, Configuration,
Function, Procedure), carrying exactly the fields each __init__ stores.
Entity and Component store an optional library (instantiation references are
created with library None); Package references store the referenced member in
`unit`; Configuration stores the entity it configures (optional, because the
binding-indication path constructs Configuration without one). -/
inductive DesignUnit where
  | Entity (name : String) (library : Option String)
  | Package (name : String) (library : String) (unit : Option String)
  | Component (entity : String) (inst : Option String) (library : Option String)
  | Configuration (name : String) (entity : Option String) (library : String)
  | Function (name : String) (library : String)
  | Procedure (name : String) (library : String)
deriving DecidableEq

/-- Embedding of the six __eq__ methods of src/chiptools/parsers/vhdl.py:
each first checks isinstance of its own class (cross-kind comparison is
False); Entity (line 195), Configuration (line 247), Function (line 43) and
Procedure (line 86) compare `name` only; Component (line 305) compares
`entity` only; Package (line 166) compares `name` and `library`. -/
def duEq : DesignUnit → DesignUnit → Bool
  | .Entity n _, .Entity n2 _ => decide (n = n2)
  | .Package n l _, .Package n2 l2 _ => decide (n = n2) && decide (l = l2)
  | .Component e _ _, .Component e2 _ _ => decide (e = e2)
  | .Configuration n _ _, .Configuration n2 _ _ => decide (n = n2)
  | .Function n _, .Function n2 _ => decide (n = n2)
  | .Procedure n _, .Procedure n2 _ => decide (n = n2)
  | _, _ => false

theorem duEq_refl (u : DesignUnit) : duEq u u = true := by
  cases u <;> simp [duEq]

theorem duEq_symm (u v : DesignUnit) (h : duEq u v = true) : duEq v u = true := by
  cases u <;> cases v <;> simp_all [duEq]

theorem duEq_trans (u v w : DesignUnit) (h1 : duEq u v = true)
    (h2 : duEq v w = true) : duEq u w = true := by
  cases u <;> cases v <;> cases w <;> simp_all [duEq]

/-- Claim C8 (counterexample): the claim states that two Entity identities
with the same name but different libraries are not equal; in the code
Entity.__eq__ (vhdl.py lines 195-198) compares names only, so two such
identities compare equal. -/
theorem entity_eq_ignores_library_cex :
    duEq (DesignUnit.Entity "top" (some "liba"))
      (DesignUnit.Entity "top" (some "libb")) = true := by
  decide

/-- Claim C8 (amended): two Design Unit Identities of the same kind are equal
iff their names match — Entity, Configuration, Function and Procedure by
`name` alone, Component by its `entity` name alone — except Package
identities, which are equal iff both name and library match. -/
theorem design_unit_equality_characterisation :
    (∀ n l n2 l2, duEq (DesignUnit.Entity n l) (DesignUnit.Entity n2 l2) = true ↔ n = n2)
    ∧ (∀ n l u n2 l2 u2,
        duEq (DesignUnit.Package n l u) (DesignUnit.Package n2 l2 u2) = true ↔ n = n2 ∧ l = l2)
    ∧ (∀ e i l e2 i2 l2,
        duEq (DesignUnit.Component e i l) (DesignUnit.Component e2 i2 l2) = true ↔ e = e2)
    ∧ (∀ n e l n2 e2 l2,
        duEq (DesignUnit.Configuration n e l) (DesignUnit.Configuration n2 e2 l2) = true ↔ n = n2)
    ∧ (∀ n l n2 l2, duEq (DesignUnit.Function n l) (DesignUnit.Function n2 l2) = true ↔ n = n2)
    ∧ (∀ n l n2 l2, duEq (DesignUnit.Procedure n l) (DesignUnit.Procedure n2 l2) = true ↔ n = n2) := by
  refine ⟨?_, ?_, ?_, ?_, ?_, ?_⟩ <;> intros <;> simp [duEq]

/-- Python value model for the Configuration name field: the code stores
either a string or — through the trailing comma at vhdl.py line 256 — a
one-element tuple of a string (the only tuple shape the source constructs). -/
inductive PyVal where
  | str (s : String)
  | tup1 (s : String)
deriving DecidableEq

/-- A Configuration definition as Configuration.__init__ stores it
(vhdl.py lines 236-239): `name` is whatever value the caller passed (a PyVal,
since get_all_definitions passes a tuple), plus `entity` and `library`. -/
structure ConfigurationDef where
  name : PyVal
  entity : String
  library : String
deriving DecidableEq

/-- Embedding of Configuration.__eq__ (vhdl.py lines 247-250): name only. -/
def ConfigurationDef.eqPy (a b : ConfigurationDef) : Bool :=
  decide (a.name = b.name)

/-- Embedding of Configuration.get_all_definitions (vhdl.py lines 252-265)
with the regex engine abstracted: `matchGroups` lists the (ident, entity)
group pairs that CONFIGURATION_RE.finditer yields on the lower-cased,
comment-stripped source text. The body reproduces the loop verbatim,
including `ident = match.group('ident'),` — the trailing comma makes `ident`
a one-element tuple in Python, and that tuple is stored as the name of the
constructed Configuration. The Python set accumulation is modelled as
append-if-absent under Configuration.__eq__. -/
def Configuration.get_all_definitions (matchGroups : List (String × String))
    (library : String) : List ConfigurationDef :=
  matchGroups.foldl
    (fun defs m =>
      let c : ConfigurationDef := ⟨PyVal.tup1 m.1, m.2, library⟩
      if defs.any (fun d => d.eqPy c) then defs else defs ++ [c])
    []

/-- Claim C9: for a configuration declaration `configuration c of e is`
(match groups ident = c, entity = e) the Unit Extractor stores the tuple
("c",) as the Configuration name, not the identifier string "c" the claim
and the spec call for — the trailing comma at vhdl.py line 256 wraps the
identifier in a one-element tuple, so the stored name never equals the
string name a reference or binding indication would use. -/
theorem configuration_name_tuple_bug :
    Configuration.get_all_definitions [("c", "e")] "work"
      = [⟨PyVal.tup1 "c", "e", "work"⟩]
    ∧ decide (PyVal.tup1 "c" = PyVal.str "c") = false := by
  exact ⟨rfl, rfl⟩

/-- A parsed source file as the Dependency Graph Builder sees it
(ParsedVhdlFile, vhdl.py lines 358-534): its path, the project-assigned
library, the design units it defines and the design units it references.
Python compares ParsedVhdlFile objects by identity; distinct files carry
distinct paths, so structural equality models identity here. -/
structure ParsedFile where
  path : String
  library : String
  definitions : List DesignUnit
  references : List DesignUnit
deriving DecidableEq

/-- A node of the design hierarchy graph: a concrete source file, or a stub
for an unresolved non-Component reference (callgraph.py lines 87-94). -/
inductive Node where
  | file (f : ParsedFile)
  | stub (u : DesignUnit)
deriving DecidableEq

/-- isinstance(u, Component) as used at callgraph.py line 89. -/
def DesignUnit.isComponent : DesignUnit → Bool
  | .Component _ _ _ => true
  | _ => false

/-- The files defining a unit equal to `u`: CallGraph.get_definition_map
(callgraph.py lines 39-51) groups files by definition under the unit
classes' __eq__, and `definition_map.get(dependency, [])` (line 75) looks
the group up; the group for `u` is exactly the files one of whose
definitions compares equal to `u`. -/
def CallGraph.definers (files : List ParsedFile) (u : DesignUnit) : List ParsedFile :=
  files.filter (fun f => f.definitions.any (fun d => duEq d u))

/-- The files referencing a unit equal to `u`: CallGraph.get_reference_map
(callgraph.py lines 53-65) followed by lookup, as for definers. -/
def CallGraph.referencers (files : List ParsedFile) (u : DesignUnit) : List ParsedFile :=
  files.filter (fun f => f.references.any (fun r => duEq r u))

/-- Insert a referenced unit into the accumulated key list unless a unit
equal to it (under __eq__) is already present: how the reference_map dict
accumulates its keys (callgraph.py lines 60-64). -/
def CallGraph.insertUnit (acc : List DesignUnit) (r : DesignUnit) : List DesignUnit :=
  if acc.any (fun u => duEq u r) then acc else acc ++ [r]

/-- reference_map.keys() (callgraph.py line 70): the first representative of
each __eq__ class of reference, in file and reference order. -/
def CallGraph.referenced_units (files : List ParsedFile) : List DesignUnit :=
  files.foldl (fun acc f => f.references.foldl CallGraph.insertUnit acc) []

/-- The edges one dependency contributes to one parent in
CallGraph.get_design_hierarchy (callgraph.py lines 79-97): nothing when the
parent does not reference the unit or itself implements it; a stub when no
file implements it and it is not a Component; otherwise an edge to every
implementing file. -/
def CallGraph.hierarchy_edges (files : List ParsedFile) (parent : ParsedFile)
    (u : DesignUnit) : List Node :=
  let children := CallGraph.definers files u
  if parent ∈ CallGraph.referencers files u ∧ parent ∉ children then
    if children.isEmpty ∧ ¬ u.isComponent then [Node.stub u]
    else children.map Node.file
  else []

/-- CallGraph.get_design_hierarchy (callgraph.py lines 67-98), viewed per
parent: the dependency set of `parent` is the union, over the referenced
units, of the edges that unit contributes to `parent`. -/
def CallGraph.get_design_hierarchy (files : List ParsedFile) (parent : ParsedFile) : List Node :=
  (CallGraph.referenced_units files).flatMap (fun u => CallGraph.hierarchy_edges files parent u)

theorem any_duEq_congr (l : List DesignUnit) (u v : DesignUnit) (h : duEq u v = true) :
    (l.any fun d => duEq d u) = (l.any fun d => duEq d v) := by
  cases hu : (l.any fun d => duEq d u) with
  | true =>
    obtain ⟨d, hm, hd⟩ := List.any_eq_true.mp hu
    exact (List.any_eq_true.mpr ⟨d, hm, duEq_trans d u v hd h⟩).symm
  | false =>
    cases hv : (l.any fun d => duEq d v) with
    | true =>
      obtain ⟨d, hm, hd⟩ := List.any_eq_true.mp hv
      have hdu : (l.any fun d => duEq d u) = true :=
        List.any_eq_true.mpr ⟨d, hm, duEq_trans d v u hd (duEq_symm u v h)⟩
      rw [hu] at hdu
      exact hdu
    | false => rfl

theorem definers_congr (files : List ParsedFile) (u v : DesignUnit)
    (h : duEq u v = true) : CallGraph.definers files u = CallGraph.definers files v := by
  unfold CallGraph.definers
  exact List.filter_congr fun f _ => any_duEq_congr f.definitions u v h

theorem referencers_congr (files : List ParsedFile) (u v : DesignUnit)
    (h : duEq u v = true) : CallGraph.referencers files u = CallGraph.referencers files v := by
  unfold CallGraph.referencers
  exact List.filter_congr fun f _ => any_duEq_congr f.references u v h

theorem insertUnit_covers (acc : List DesignUnit) (r : DesignUnit) :
    ∃ u, u ∈ CallGraph.insertUnit acc r ∧ duEq u r = true := by
  unfold CallGraph.insertUnit
  split
  · next h =>
    obtain ⟨u, hu, hequ⟩ := List.any_eq_true.mp h
    exact ⟨u, hu, hequ⟩
  · exact ⟨r, by simp, duEq_refl r⟩

theorem insertUnit_mono (acc : List DesignUnit) (r u : DesignUnit)
    (h : u ∈ acc) : u ∈ CallGraph.insertUnit acc r := by
  unfold CallGraph.insertUnit
  split <;> simp [h]

theorem foldl_insertUnit_mono (l : List DesignUnit) :
    ∀ acc u, u ∈ acc → u ∈ l.foldl CallGraph.insertUnit acc := by
  induction l with
  | nil => intro acc u h; exact h
  | cons r rest ih =>
    intro acc u h
    exact ih (CallGraph.insertUnit acc r) u (insertUnit_mono acc r u h)

theorem foldl_insertUnit_covers (l : List DesignUnit) :
    ∀ acc r, r ∈ l → ∃ u, u ∈ l.foldl CallGraph.insertUnit acc ∧ duEq u r = true := by
  induction l with
  | nil => intro acc r h; cases h
  | cons x rest ih =>
    intro acc r h
    cases h with
    | head =>
      obtain ⟨u, hu, hequ⟩ := insertUnit_covers acc x
      exact ⟨u, foldl_insertUnit_mono rest (CallGraph.insertUnit acc x) u hu, hequ⟩
    | tail _ hmem => exact ih (CallGraph.insertUnit acc x) r hmem

theorem referenced_units_aux_mono (l : List ParsedFile) :
    ∀ acc u, u ∈ acc →
      u ∈ l.foldl (fun a f => f.references.foldl CallGraph.insertUnit a) acc := by
  induction l with
  | nil => intro acc u h; exact h
  | cons g rest ih =>
    intro acc u h
    exact ih _ u (foldl_insertUnit_mono g.references acc u h)

theorem referenced_units_aux_covers (l : List ParsedFile) :
    ∀ acc f, f ∈ l → ∀ r, r ∈ f.references →
      ∃ u, u ∈ l.foldl (fun a f2 => f2.references.foldl CallGraph.insertUnit a) acc
        ∧ duEq u r = true := by
  induction l with
  | nil => intro acc f hf; cases hf
  | cons g rest ih =>
    intro acc f hf r hr
    cases hf with
    | head =>
      obtain ⟨u, hu, hequ⟩ := foldl_insertUnit_covers g.references acc r hr
      exact ⟨u, referenced_units_aux_mono rest _ u hu, hequ⟩
    | tail _ hmem => exact ih _ f hmem r hr

/-- Every reference made by a file of the set has a representative (equal
under the unit classes' __eq__) among the reference map keys. -/
theorem referenced_units_covers (files : List ParsedFile) (f : ParsedFile)
    (hf : f ∈ files) (r : DesignUnit) (hr : r ∈ f.references) :
    ∃ u, u ∈ CallGraph.referenced_units files ∧ duEq u r = true :=
  referenced_units_aux_covers files [] f hf r hr

/-- Claim C2: for every set of parsed source files, the dependency graph
produced by get_design_hierarchy contains no self-edges — no file is a
member of its own dependency set, including when a file both defines and
references the same unit (the `parent in children` test at callgraph.py
line 82 skips exactly those pairs, and stub edges are never files). -/
theorem design_hierarchy_no_self_edges (files : List ParsedFile) (p : ParsedFile) :
    Node.file p ∉ CallGraph.get_design_hierarchy files p := by
  intro hmem
  unfold CallGraph.get_design_hierarchy at hmem
  rw [List.mem_flatMap] at hmem
  obtain ⟨u, _, hedge⟩ := hmem
  simp only [CallGraph.hierarchy_edges] at hedge
  by_cases hguard : p ∈ CallGraph.referencers files u ∧ p ∉ CallGraph.definers files u
  · rw [if_pos hguard] at hedge
    by_cases hstub : (CallGraph.definers files u).isEmpty ∧ ¬ u.isComponent = true
    · rw [if_pos hstub] at hedge
      simp at hedge
    · rw [if_neg hstub] at hedge
      obtain ⟨a, ha, haeq⟩ := List.mem_map.mp hedge
      simp only [Node.file.injEq] at haeq
      subst haeq
      exact hguard.2 ha
  · rw [if_neg hguard] at hedge
    cases hedge

/-- Example file for the C2 witness: defines and references the same entity. -/
def c2exFile : ParsedFile :=
  ⟨"b.vhd", "work", [DesignUnit.Entity "u" (some "work")], [DesignUnit.Entity "u" (some "work")]⟩

/-- Witness for claim C2 at a concrete input: a file that both defines and
references entity u is not a member of its own dependency set. -/
theorem design_hierarchy_no_self_edges_witness :
    decide (Node.file c2exFile ∈ CallGraph.get_design_hierarchy [c2exFile] c2exFile) = false :=
  decide_eq_false (design_hierarchy_no_self_edges [c2exFile] c2exFile)

/-- Claim C1 (amended): if file A is among the files defining design unit U
and file B lists U among its references and B is not itself among the files
defining U, then the dependency graph produced by get_design_hierarchy
contains the edge from B to A (A is a member of the dependency set of B).
The extra proviso is forced by the self-implementation elision at
callgraph.py line 82: when B also defines U no edge from B is added at all,
not even towards a different definer A. -/
theorem design_hierarchy_edge (files : List ParsedFile) (A B : ParsedFile) (u : DesignUnit)
    (hA : A ∈ CallGraph.definers files u)
    (hBf : B ∈ files) (hBr : u ∈ B.references)
    (hBnd : B ∉ CallGraph.definers files u) :
    Node.file A ∈ CallGraph.get_design_hierarchy files B := by
  obtain ⟨u2, hu2mem, hu2eq⟩ := referenced_units_covers files B hBf u hBr
  have hdef : CallGraph.definers files u2 = CallGraph.definers files u :=
    definers_congr files u2 u hu2eq
  have hBref : B ∈ CallGraph.referencers files u2 := by
    unfold CallGraph.referencers
    rw [List.mem_filter]
    exact ⟨hBf, List.any_eq_true.mpr ⟨u, hBr, duEq_symm u2 u hu2eq⟩⟩
  have hBnd2 : B ∉ CallGraph.definers files u2 := by rw [hdef]; exact hBnd
  have hemp : (CallGraph.definers files u2).isEmpty = false := by
    rw [hdef]
    cases hD : CallGraph.definers files u with
    | nil => rw [hD] at hA; cases hA
    | cons a rest => rfl
  have hedge : Node.file A ∈ CallGraph.hierarchy_edges files B u2 := by
    simp only [CallGraph.hierarchy_edges]
    rw [if_pos ⟨hBref, hBnd2⟩]
    rw [if_neg (by simp [hemp])]
    exact List.mem_map.mpr ⟨A, by rw [hdef]; exact hA, rfl⟩
  unfold CallGraph.get_design_hierarchy
  exact List.mem_flatMap.mpr ⟨u2, hu2mem, hedge⟩

/-- Example file for C1: defines entity u only. -/
def c1A : ParsedFile := ⟨"a.vhd", "work", [DesignUnit.Entity "u" (some "work")], []⟩

/-- Example file for C1: defines entity u and also references it. -/
def c1B : ParsedFile :=
  ⟨"b.vhd", "work", [DesignUnit.Entity "u" (some "work")], [DesignUnit.Entity "u" (some "work")]⟩

/-- Example file for C1: references entity u without defining it. -/
def c1C : ParsedFile := ⟨"c.vhd", "work", [], [DesignUnit.Entity "u" (some "work")]⟩

/-- Claim C1 (counterexample): with A defining entity u and a different file
B both defining and referencing u, the claim as stated requires the edge
from B to A, but get_design_hierarchy adds no such edge: B is among the
definers of u, so the elision branch skips B entirely. -/
theorem design_hierarchy_edge_cex :
    decide (c1A ∈ CallGraph.definers [c1A, c1B] (DesignUnit.Entity "u" (some "work"))) = true
    ∧ decide ((DesignUnit.Entity "u" (some "work")) ∈ c1B.references) = true
    ∧ decide (c1A = c1B) = false
    ∧ decide (Node.file c1A ∈ CallGraph.get_design_hierarchy [c1A, c1B] c1B) = false := by
  exact ⟨by decide, by decide, by decide, by decide⟩

/-- Witness for claim C1 at a concrete input: c1C references entity u and
does not define it, c1A defines it, and the graph has the edge. -/
theorem design_hierarchy_edge_witness :
    Node.file c1A ∈ CallGraph.get_design_hierarchy [c1A, c1C] c1C :=
  design_hierarchy_edge [c1A, c1C] c1A c1C (DesignUnit.Entity "u" (some "work"))
    (by decide) (by decide) (by decide) (by decide)

/-- The design hierarchy as CallGraph.get_callchain consumes it: the Python
dict mapping a node to the collection of its dependencies (graph[n]),
modelled as an association list with unique keys. -/
abbrev Graph := List (Node × List Node)

/-- Python graph[n]: the dependency list of n, or the empty list when n is
not a key (the code only indexes behind an `n in graph` test). -/
def graphDeps (g : Graph) (n : Node) : List Node :=
  match g with
  | [] => []
  | (k, v) :: rest => if k = n then v else graphDeps rest n

/-- Python `n in graph` (callgraph.py line 27). -/
def isKey (g : Graph) (n : Node) : Bool :=
  match g with
  | [] => false
  | (k, _) :: rest => if k = n then true else isKey rest n

/-- Every node the graph mentions: keys and edge targets, deduplicated. -/
def nodesOf (g : Graph) : List Node :=
  (g.map Prod.fst ++ g.flatMap Prod.snd).dedup

/-- Modelled from the spec: CallGraph.get_callchain calls
utils.topological_sort (callgraph.py line 19), but no such function exists
anywhere in the repository sources (chiptools/common/utils.py defines none).
Spec section 4.3 describes the missing operation: a standard
dependency-first topological order over the graph — a node appears only
after all nodes it depends on — that must detect cycles and produce a
distinct cyclic-dependency outcome rather than a partial order. Kahn-style
worker: emit a remaining node all of whose dependencies have already left
the remaining set; when none is emittable while nodes remain, the graph is
cyclic and the outcome is none. Fuel makes termination structural; the
initial fuel covers one emission per node. -/
def topoAux (g : Graph) : Nat → List Node → List Node → Option (List Node)
  | _, [], acc => some acc
  | 0, _ :: _, _ => none
  | fuel + 1, r :: rs, acc =>
    match (r :: rs).find? (fun n => (graphDeps g n).all (fun d => decide (d ∉ r :: rs))) with
    | some n => topoAux g fuel ((r :: rs).erase n) (acc ++ [n])
    | none => none

/-- Modelled from the spec (section 4.3): the dependency-first topological
order of the graph nodes, or none when the graph contains a cycle. -/
def topological_sort (g : Graph) : Option (List Node) :=
  topoAux g (nodesOf g).length (nodesOf g) []

/-- The accumulation loop of CallGraph.get_callchain (callgraph.py lines
24-32): walk the sorted nodes; skip one that is not a graph key; append one
not already in the callchain as soon as some member of the current callchain
is among its dependencies. -/
def callchain_loop (g : Graph) : List Node → List Node → List Node
  | [], cc => cc
  | n :: rest, cc =>
    if isKey g n ∧ cc.any (fun caller => decide (caller ∈ graphDeps g n)) ∧ n ∉ cc
    then callchain_loop g rest (cc ++ [n])
    else callchain_loop g rest cc

/-- CallGraph.get_callchain (callgraph.py lines 14-33): topologically sort
the graph — any failure is caught and None returned (lines 20-23) — then
start the callchain from the modified nodes and extend it over the sorted
nodes. -/
def CallGraph.get_callchain (g : Graph) (modified_nodes : List Node) : Option (List Node) :=
  match topological_sort g with
  | none => none
  | some sorted_nodes => some (callchain_loop g sorted_nodes modified_nodes)

/-- A non-empty chain of dependency edges from a to b: b is reachable from a
by following edges forward, equivalently a is a transitive caller of b. -/
inductive ReachesDep (g : Graph) : Node → Node → Prop where
  | single : ∀ a d, d ∈ graphDeps g a → ReachesDep g a d
  | head : ∀ a d b, d ∈ graphDeps g a → ReachesDep g d b → ReachesDep g a b

theorem graphDeps_mem_decomp (g : Graph) (n d : Node) (h : d ∈ graphDeps g n) :
    ∃ v, (n, v) ∈ g ∧ d ∈ v := by
  induction g with
  | nil => cases h
  | cons kv rest ih =>
    obtain ⟨k, v⟩ := kv
    simp only [graphDeps] at h
    by_cases hk : k = n
    · rw [if_pos hk] at h
      subst hk
      exact ⟨v, by simp, h⟩
    · rw [if_neg hk] at h
      obtain ⟨v2, hv2, hd2⟩ := ih h
      exact ⟨v2, by simp [hv2], hd2⟩

theorem isKey_of_deps (g : Graph) (n d : Node) (h : d ∈ graphDeps g n) :
    isKey g n = true := by
  induction g with
  | nil => cases h
  | cons kv rest ih =>
    obtain ⟨k, v⟩ := kv
    simp only [graphDeps] at h
    simp only [isKey]
    by_cases hk : k = n
    · rw [if_pos hk]
    · rw [if_neg hk]
      rw [if_neg hk] at h
      exact ih h

theorem key_mem_nodesOf (g : Graph) (n : Node) (v : List Node) (h : (n, v) ∈ g) :
    n ∈ nodesOf g := by
  unfold nodesOf
  rw [List.mem_dedup]
  exact List.mem_append_left _ (List.mem_map.mpr ⟨(n, v), h, rfl⟩)

theorem graphDeps_mem_nodesOf (g : Graph) (n d : Node) (h : d ∈ graphDeps g n) :
    d ∈ nodesOf g := by
  obtain ⟨v, hv, hd⟩ := graphDeps_mem_decomp g n d h
  unfold nodesOf
  rw [List.mem_dedup]
  exact List.mem_append_right _ (List.mem_flatMap.mpr ⟨(n, v), hv, hd⟩)

theorem snoc_split_cases {α : Type} (acc : List α) (x : α) (l1 : List α) (n : α)
    (l2 : List α) (h : acc ++ [x] = l1 ++ n :: l2) :
    (l1 = acc ∧ n = x ∧ l2 = []) ∨ ∃ l2p, acc = l1 ++ n :: l2p ∧ l2 = l2p ++ [x] := by
  rcases List.eq_nil_or_concat l2 with h2 | ⟨l2p, y, h2⟩
  · subst h2
    obtain ⟨ha, hb⟩ := List.append_inj' h (by rfl)
    injection hb with hb
    exact Or.inl ⟨ha.symm, hb.symm, rfl⟩
  · rw [List.concat_eq_append] at h2
    subst h2
    have h3 : acc ++ [x] = (l1 ++ n :: l2p) ++ [y] := by rw [h]; simp
    obtain ⟨ha, hb⟩ := List.append_inj' h3 (by rfl)
    injection hb with hb
    subst hb
    exact Or.inr ⟨l2p, ha, rfl⟩

theorem pair_sublist_decomp {α : Type} :
    ∀ (l : List α) (a b : α), List.Sublist [a, b] l →
      ∃ p q r2, l = p ++ a :: (q ++ b :: r2) := by
  intro l
  induction l with
  | nil => intro a b h; cases h
  | cons x xs ih =>
    intro a b h
    cases h with
    | cons _ h2 =>
      obtain ⟨p, q, r2, hpqr⟩ := ih a b h2
      exact ⟨x :: p, q, r2, by rw [hpqr]; rfl⟩
    | cons₂ =>
      rename_i h2
      have hb : b ∈ xs := List.singleton_sublist.mp h2
      obtain ⟨q, r2, hqr⟩ := List.append_of_mem hb
      refine ⟨[], q, r2, ?_⟩
      rw [hqr]
      simp

theorem nodup_split_unique {α : Type} :
    ∀ (p p2 q q2 : List α) (a : α), (p ++ a :: q).Nodup →
      p ++ a :: q = p2 ++ a :: q2 → p = p2 ∧ q = q2 := by
  intro p
  induction p with
  | nil =>
    intro p2 q q2 a hnd heq
    cases p2 with
    | nil =>
      simp only [List.nil_append] at heq
      injection heq with _ h2
      exact ⟨rfl, h2⟩
    | cons y ys =>
      simp only [List.nil_append, List.cons_append] at heq
      injection heq with hay hq
      exfalso
      have hnd2 : (a :: q).Nodup := by simpa using hnd
      have hmem : a ∈ q := by
        rw [hq, hay]
        exact List.mem_append_right _ (by simp)
      exact (List.nodup_cons.mp hnd2).1 hmem
  | cons x xs ih =>
    intro p2 q q2 a hnd heq
    cases p2 with
    | nil =>
      simp only [List.cons_append, List.nil_append] at heq
      injection heq with hxa hrest
      exfalso
      subst hxa
      have hnd2 : (x :: (xs ++ x :: q)).Nodup := by exact hnd
      exact (List.nodup_cons.mp hnd2).1 (List.mem_append_right _ (by simp))
    | cons y ys =>
      simp only [List.cons_append] at heq
      injection heq with hxy hrest
      have hnd2 : (xs ++ a :: q).Nodup := by
        have hnd3 : (x :: (xs ++ a :: q)).Nodup := by simpa using hnd
        exact (List.nodup_cons.mp hnd3).2
      obtain ⟨h1, h2⟩ := ih ys q q2 a hnd2 hrest
      exact ⟨by rw [hxy, h1], h2⟩

/-- Invariant-carrying specification of the Kahn worker: a successful run
extends the accumulator to a dependency-first, duplicate-free order covering
every graph node. -/
theorem topoAux_spec (g : Graph) :
    ∀ fuel rem acc ord,
      topoAux g fuel rem acc = some ord →
      (∀ l1 n l2, acc = l1 ++ n :: l2 → ∀ d, d ∈ graphDeps g n → d ∈ l1) →
      (∀ x, x ∈ nodesOf g → x ∈ acc ∨ x ∈ rem) →
      (acc ++ rem).Nodup →
      (∀ l1 n l2, ord = l1 ++ n :: l2 → ∀ d, d ∈ graphDeps g n → d ∈ l1)
        ∧ (∀ x, x ∈ nodesOf g → x ∈ ord) ∧ ord.Nodup := by
  intro fuel
  induction fuel with
  | zero =>
    intro rem acc ord h hsorted hcov hnd
    cases rem with
    | nil =>
      simp only [topoAux, Option.some.injEq] at h
      subst h
      exact ⟨hsorted, fun x hx => (hcov x hx).resolve_right (fun hc => (List.not_mem_nil x) hc),
        by simpa using hnd⟩
    | cons r rs =>
      simp only [topoAux] at h
      exact Option.noConfusion h
  | succ fuel ih =>
    intro rem acc ord h hsorted hcov hnd
    cases rem with
    | nil =>
      simp only [topoAux, Option.some.injEq] at h
      subst h
      exact ⟨hsorted, fun x hx => (hcov x hx).resolve_right (fun hc => (List.not_mem_nil x) hc),
        by simpa using hnd⟩
    | cons r rs =>
      simp only [topoAux] at h
      cases hfind : (r :: rs).find?
          (fun n => (graphDeps g n).all (fun d => decide (d ∉ r :: rs))) with
      | none =>
        rw [hfind] at h
        exact Option.noConfusion h
      | some n =>
        rw [hfind] at h
        have h2 : topoAux g fuel ((r :: rs).erase n) (acc ++ [n]) = some ord := h
        have hnmem : n ∈ r :: rs := List.mem_of_find?_eq_some hfind
        have hpred : ∀ d, d ∈ graphDeps g n → d ∉ r :: rs := by
          have hp := List.find?_some hfind
          intro d hd
          exact of_decide_eq_true (List.all_eq_true.mp hp d hd)
        have hsorted2 : ∀ l1 m l2, acc ++ [n] = l1 ++ m :: l2 →
            ∀ d, d ∈ graphDeps g m → d ∈ l1 := by
          intro l1 m l2 hsplit d hd
          rcases snoc_split_cases acc n l1 m l2 hsplit with ⟨hl1, hmn, _⟩ | ⟨l2p, hacc, _⟩
          · subst hmn
            have hd_nodes := graphDeps_mem_nodesOf g m d hd
            rcases hcov d hd_nodes with hda | hdr
            · rw [hl1]; exact hda
            · exact absurd hdr (hpred d hd)
          · exact hsorted l1 m l2p hacc d hd
        have hcov2 : ∀ x, x ∈ nodesOf g → x ∈ acc ++ [n] ∨ x ∈ (r :: rs).erase n := by
          intro x hx
          rcases hcov x hx with hxa | hxr
          · exact Or.inl (List.mem_append_left _ hxa)
          · by_cases hxn : x = n
            · exact Or.inl (List.mem_append_right _ (by simp [hxn]))
            · exact Or.inr ((List.mem_erase_of_ne hxn).mpr hxr)
        have hperm : List.Perm ((acc ++ [n]) ++ (r :: rs).erase n) (acc ++ r :: rs) := by
          have h1 : (acc ++ [n]) ++ (r :: rs).erase n = acc ++ (n :: (r :: rs).erase n) := by
            simp
          rw [h1]
          exact List.Perm.append_left acc (List.perm_cons_erase hnmem).symm
        have hnd2 : ((acc ++ [n]) ++ (r :: rs).erase n).Nodup := hperm.symm.nodup hnd
        exact ih ((r :: rs).erase n) (acc ++ [n]) ord h2 hsorted2 hcov2 hnd2

/-- The spec-modelled topological order is dependency-first, complete over
the graph nodes and duplicate-free. -/
theorem topological_sort_spec (g : Graph) (ord : List Node)
    (h : topological_sort g = some ord) :
    (∀ l1 n l2, ord = l1 ++ n :: l2 → ∀ d, d ∈ graphDeps g n → d ∈ l1)
      ∧ (∀ x, x ∈ nodesOf g → x ∈ ord) ∧ ord.Nodup := by
  refine topoAux_spec g (nodesOf g).length (nodesOf g) [] ord h ?_ ?_ ?_
  · intro l1 n l2 hsplit
    exact absurd hsplit (by simp)
  · intro x hx
    exact Or.inr hx
  · simpa using List.nodup_dedup _

/-- In a dependency-first order, everything reachable from a node along
dependency edges lies strictly before it. -/
theorem reaches_before (g : Graph) (ord : List Node)
    (hsorted : ∀ l1 n l2, ord = l1 ++ n :: l2 → ∀ d, d ∈ graphDeps g n → d ∈ l1) :
    ∀ a b, ReachesDep g a b → ∀ l1 l2, ord = l1 ++ a :: l2 → b ∈ l1 := by
  intro a b hr
  induction hr with
  | single a d hd =>
    intro l1 l2 hsplit
    exact hsorted l1 a l2 hsplit d hd
  | head a d b hd hr2 ih =>
    intro l1 l2 hsplit
    have hdl1 : d ∈ l1 := hsorted l1 a l2 hsplit d hd
    obtain ⟨p, q, hpq⟩ := List.append_of_mem hdl1
    have hord : ord = p ++ d :: (q ++ a :: l2) := by rw [hsplit, hpq]; simp
    have hb := ih p (q ++ a :: l2) hord
    rw [hpq]
    exact List.mem_append_left _ hb

/-- A graph with a dependency cycle admits no dependency-first order: the
spec-modelled topological_sort yields the cyclic-dependency outcome. -/
theorem cycle_no_sort (g : Graph) (a : Node) (hcyc : ReachesDep g a a) :
    topological_sort g = none := by
  cases hsort : topological_sort g with
  | none => rfl
  | some ord =>
    exfalso
    obtain ⟨hsorted, hcomplete, hnodup⟩ := topological_sort_spec g ord hsort
    have hdeps : ∃ d, d ∈ graphDeps g a := by
      cases hcyc with
      | single =>
        rename_i hd
        exact ⟨a, hd⟩
      | head =>
        rename_i d hd hr
        exact ⟨d, hd⟩
    obtain ⟨d0, hd0⟩ := hdeps
    obtain ⟨v, hv, _⟩ := graphDeps_mem_decomp g a d0 hd0
    have ha : a ∈ ord := hcomplete a (key_mem_nodesOf g a v hv)
    obtain ⟨l1, l2, hsplit⟩ := List.append_of_mem ha
    have hal1 : a ∈ l1 := reaches_before g ord hsorted a a hcyc l1 l2 hsplit
    rw [hsplit] at hnodup
    obtain ⟨_, _, hdisj⟩ := List.nodup_append.mp hnodup
    exact hdisj hal1 (by simp)

/-- Claim C4: for every dependency graph containing a cycle, get_callchain
yields the distinct cyclic-dependency outcome None — the spec-modelled
topological sort reports the cycle, the code catches the failure at
callgraph.py lines 20-23 and returns None rather than crashing or returning
a partial order. -/
theorem get_callchain_cycle_none (g : Graph) (modified : List Node) (a : Node)
    (hcyc : ReachesDep g a a) :
    CallGraph.get_callchain g modified = none := by
  unfold CallGraph.get_callchain
  rw [cycle_no_sort g a hcyc]

/-- Cyclic example node for the C4 witness. -/
def cycA : Node := Node.file ⟨"x.vhd", "work", [], []⟩

/-- Cyclic example node for the C4 witness. -/
def cycB : Node := Node.file ⟨"y.vhd", "work", [], []⟩

/-- Two files each depending on the other: a cyclic dependency graph. -/
def cycGraph : Graph := [(cycA, [cycB]), (cycB, [cycA])]

/-- Witness for claim C4 at a concrete input: on the two-node cycle,
get_callchain returns None. -/
theorem get_callchain_cycle_none_witness :
    CallGraph.get_callchain cycGraph [] = none :=
  get_callchain_cycle_none cycGraph [] cycA
    (ReachesDep.head cycA cycB cycA (by decide) (ReachesDep.single cycB cycA (by decide)))

/-- Invariant-carrying specification of the get_callchain accumulation loop:
walking a suffix of a dependency-first order, the callchain only grows by an
ordered selection of the walked nodes, and it ends up containing every
walked node from which some seed is reachable along dependency edges. -/
theorem callchain_loop_spec (g : Graph) (ord : List Node)
    (hsorted : ∀ l1 n l2, ord = l1 ++ n :: l2 → ∀ d, d ∈ graphDeps g n → d ∈ l1)
    (cc0 : List Node) :
    ∀ sfx P add,
      ord = P ++ sfx →
      List.Sublist add P →
      (∀ n, n ∈ P → (∃ s, s ∈ cc0 ∧ ReachesDep g n s) → n ∈ cc0 ++ add) →
      ∃ add2, callchain_loop g sfx (cc0 ++ add) = cc0 ++ (add ++ add2)
        ∧ List.Sublist (add ++ add2) (P ++ sfx)
        ∧ (∀ n, n ∈ P ++ sfx → (∃ s, s ∈ cc0 ∧ ReachesDep g n s) →
            n ∈ callchain_loop g sfx (cc0 ++ add)) := by
  intro sfx
  induction sfx with
  | nil =>
    intro P add hord hsub hinv
    refine ⟨[], ?_, ?_, ?_⟩
    · simp [callchain_loop]
    · simpa using hsub
    · intro n hn hg
      simp only [callchain_loop]
      exact hinv n (by simpa using hn) hg
  | cons m rest ih =>
    intro P add hord hsub hinv
    simp only [callchain_loop]
    by_cases hcond : (isKey g m = true)
        ∧ ((cc0 ++ add).any (fun caller => decide (caller ∈ graphDeps g m)) = true)
        ∧ m ∉ cc0 ++ add
    · rw [if_pos hcond]
      have hreassoc : (cc0 ++ add) ++ [m] = cc0 ++ (add ++ [m]) := by simp
      rw [hreassoc]
      have hinv2 : ∀ n, n ∈ P ++ [m] →
          (∃ s, s ∈ cc0 ∧ ReachesDep g n s) → n ∈ cc0 ++ (add ++ [m]) := by
        intro n hn hg
        rcases List.mem_append.mp hn with hnP | hnm
        · have := hinv n hnP hg
          rcases List.mem_append.mp this with h1 | h2
          · exact List.mem_append_left _ h1
          · exact List.mem_append_right _ (List.mem_append_left _ h2)
        · exact List.mem_append_right _ (List.mem_append_right _ hnm)
      obtain ⟨add2, ha, hb, hc⟩ := ih (P ++ [m]) (add ++ [m])
        (by rw [hord]; simp)
        (List.Sublist.append hsub (List.Sublist.refl [m]))
        hinv2
      refine ⟨m :: add2, ?_, ?_, ?_⟩
      · rw [ha]; simp
      · have hb2 : List.Sublist ((add ++ [m]) ++ add2) (P ++ m :: rest) := by
          have heq : (P ++ [m]) ++ rest = P ++ m :: rest := by simp
          rw [heq] at hb
          exact hb
        simpa using hb2
      · intro n hn hg
        exact hc n (by simpa using hn) hg
    · rw [if_neg hcond]
      have hinv2 : ∀ n, n ∈ P ++ [m] →
          (∃ s, s ∈ cc0 ∧ ReachesDep g n s) → n ∈ cc0 ++ add := by
        intro n hn hg
        rcases List.mem_append.mp hn with hnP | hnm
        · exact hinv n hnP hg
        · have hnm2 : n = m := by simpa using hnm
          subst hnm2
          obtain ⟨s, hs, hr⟩ := hg
          by_cases hmem : n ∈ cc0 ++ add
          · exact hmem
          · exfalso
            apply hcond
            cases hr with
            | single =>
              rename_i hd
              exact ⟨isKey_of_deps g n s hd,
                List.any_eq_true.mpr ⟨s, List.mem_append_left _ hs, decide_eq_true hd⟩, hmem⟩
            | head =>
              rename_i d hd hr2
              have hdP : d ∈ P := hsorted P n rest hord d hd
              have hdcc : d ∈ cc0 ++ add := hinv d hdP ⟨s, hs, hr2⟩
              exact ⟨isKey_of_deps g n d hd,
                List.any_eq_true.mpr ⟨d, hdcc, decide_eq_true hd⟩, hmem⟩
      obtain ⟨add2, ha, hb, hc⟩ := ih (P ++ [m]) add
        (by rw [hord]; simp)
        (hsub.trans (List.sublist_append_left P [m]))
        hinv2
      refine ⟨add2, ha, ?_, ?_⟩
      · have heq : (P ++ [m]) ++ rest = P ++ m :: rest := by simp
        rw [heq] at hb
        exact hb
      · intro n hn hg
        exact hc n (by simpa using hn) hg

/-- Claim C3: whenever get_callchain succeeds (the spec-modelled topological
sort found no cycle), the returned list begins with the seed nodes in
caller-supplied order, additionally contains every node from which a seed is
reachable by following dependency edges (every transitive caller), and each
additionally contained node appears after all of its own dependencies that
are also in the result. -/
theorem get_callchain_spec (g : Graph) (modified chain : List Node)
    (h : CallGraph.get_callchain g modified = some chain) :
    ∃ rest, chain = modified ++ rest
      ∧ (∀ n s, s ∈ modified → ReachesDep g n s → n ∈ chain)
      ∧ (∀ l1 n l2, rest = l1 ++ n :: l2 → ∀ d, d ∈ graphDeps g n → d ∈ chain →
          d ∈ modified ++ l1) := by
  unfold CallGraph.get_callchain at h
  cases hsort : topological_sort g with
  | none =>
    rw [hsort] at h
    exact Option.noConfusion h
  | some ord =>
    rw [hsort] at h
    have h2opt : some (callchain_loop g ord modified) = some chain := h
    injection h2opt with hloop
    obtain ⟨hsorted, hcomplete, hnodup⟩ := topological_sort_spec g ord hsort
    obtain ⟨add2, ha, hb, hc⟩ := callchain_loop_spec g ord hsorted modified ord [] []
      (by simp) (by simp) (by intro n hn hg; exact absurd hn (List.not_mem_nil n))
    have happ : modified ++ ([] : List Node) = modified := by simp
    rw [happ] at ha hc
    have hchain : chain = modified ++ add2 := by
      rw [← hloop]
      simpa using ha
    have hsub2 : List.Sublist add2 ord := hb
    refine ⟨add2, hchain, ?_, ?_⟩
    · intro n s hs hr
      have hdep : ∃ d, d ∈ graphDeps g n := by
        cases hr with
        | single =>
          rename_i hd
          exact ⟨s, hd⟩
        | head =>
          rename_i d hd hr2
          exact ⟨d, hd⟩
      obtain ⟨d0, hd0⟩ := hdep
      obtain ⟨v, hv, _⟩ := graphDeps_mem_decomp g n d0 hd0
      have hnord : n ∈ ord := hcomplete n (key_mem_nodesOf g n v hv)
      have hmem := hc n hnord ⟨s, hs, hr⟩
      rw [hloop] at hmem
      exact hmem
    · intro l1 n l2 hsplit d hd hdchain
      rw [hchain] at hdchain
      rcases List.mem_append.mp hdchain with hdmod | hdadd2
      · exact List.mem_append_left _ hdmod
      · have hnadd : n ∈ add2 := by
          rw [hsplit]
          exact List.mem_append_right _ (by simp)
        have hnord : n ∈ ord := hsub2.subset hnadd
        obtain ⟨q1, q2, hq⟩ := List.append_of_mem hnord
        have hdq1 : d ∈ q1 := hsorted q1 n q2 hq d hd
        have hnodup2 := hnodup
        rw [hq] at hnodup2
        obtain ⟨_, _, hdisj⟩ := List.nodup_append.mp hnodup2
        have hdn : d ≠ n := by
          intro he
          subst he
          exact hdisj hdq1 (by simp)
        have hdsplit : d ∈ l1 ++ n :: l2 := by rw [← hsplit]; exact hdadd2
        rcases List.mem_append.mp hdsplit with hl1 | hcons
        · exact List.mem_append_right _ hl1
        · rcases List.mem_cons.mp hcons with he | hl2
          · exact absurd he hdn
          · exfalso
            have hpair : List.Sublist [n, d] add2 := by
              rw [hsplit]
              have h1 : List.Sublist [n, d] (n :: l2) :=
                List.Sublist.cons₂ n (List.singleton_sublist.mpr hl2)
              exact h1.trans (List.sublist_append_right l1 (n :: l2))
            obtain ⟨p, q, r2, hpqr⟩ := pair_sublist_decomp ord n d (hpair.trans hsub2)
            have hnodup3 := hnodup
            rw [hpqr] at hnodup3
            obtain ⟨hp, hqq⟩ := nodup_split_unique p q1 (q ++ d :: r2) q2 n hnodup3
              (by rw [← hpqr, hq])
            have hdq2 : d ∈ q2 := by
              rw [← hqq]
              exact List.mem_append_right _ (by simp)
            exact hdisj hdq1 (List.mem_cons_of_mem n hdq2)

/-- Example node for the C3 witness: the modified seed file. -/
def chainFa : Node := Node.file ⟨"a.vhd", "work", [], []⟩

/-- Example node for the C3 witness: a file depending on the seed. -/
def chainFb : Node := Node.file ⟨"b.vhd", "work", [], []⟩

/-- One-edge dependency graph for the C3 witness. -/
def chainGraph : Graph := [(chainFb, [chainFa])]

/-- Witness for claim C3 at a concrete input: with b depending on modified
file a, the callchain contains b (the transitive caller of the seed). -/
theorem get_callchain_spec_witness :
    chainFb ∈ (CallGraph.get_callchain chainGraph [chainFa]).getD [] := by
  have h : CallGraph.get_callchain chainGraph [chainFa] = some [chainFa, chainFb] := by
    decide
  obtain ⟨rest, h1, h2, h3⟩ := get_callchain_spec chainGraph [chainFa] [chainFa, chainFb] h
  rw [h]
  exact h2 chainFb chainFa (by decide) (ReachesDep.single chainFb chainFa (by decide))

/-- The filesystem as the cache and orchestrator observe it: absolute path
to file bytes. A missing path is a missing file. -/
abbrev FS := List (String × String)

/-- Content hash: hashlib.md5 hexdigest (cache.py lines 110-111), modelled
by an injective stand-in — the content itself. -/
def md5 (data : String) : String := data

/-- Python dict lookup (dict.get / subscript) over an association list. -/
def lookupA {α : Type} : List (String × α) → String → Option α
  | [], _ => none
  | (k, v) :: rest, key => if k = key then some v else lookupA rest key

/-- Python dict assignment: replace the value at the key, or append. -/
def updateA {α : Type} : List (String × α) → String → α → List (String × α)
  | [], key, v => [(key, v)]
  | (k, w) :: rest, key, v =>
    if k = key then (key, v) :: rest else (k, w) :: updateA rest key v

/-- Python dict del: drop the key (a dict holds a key at most once). -/
def eraseA {α : Type} (l : List (String × α)) (key : String) : List (String × α) :=
  l.filter (fun e => decide (¬ (e.1 = key)))

theorem lookupA_updateA_self {α : Type} (l : List (String × α)) (k : String) (v : α) :
    lookupA (updateA l k v) k = some v := by
  induction l with
  | nil => simp [updateA, lookupA]
  | cons kv rest ih =>
    obtain ⟨k2, w⟩ := kv
    simp only [updateA]
    by_cases hk : k2 = k
    · rw [if_pos hk]
      simp [lookupA]
    · rw [if_neg hk]
      simp only [lookupA]
      rw [if_neg hk]
      exact ih

theorem lookupA_updateA_other {α : Type} (l : List (String × α)) (k key : String) (v : α)
    (hne : k ≠ key) : lookupA (updateA l k v) key = lookupA l key := by
  induction l with
  | nil => simp [updateA, lookupA, hne]
  | cons kv rest ih =>
    obtain ⟨k2, w⟩ := kv
    simp only [updateA]
    by_cases hk : k2 = k
    · rw [if_pos hk]
      have hk2 : ¬ (k2 = key) := by rw [hk]; exact hne
      simp only [lookupA]
      rw [if_neg hne, if_neg hk2]
    · rw [if_neg hk]
      simp only [lookupA]
      by_cases h2 : k2 = key
      · rw [if_pos h2, if_pos h2]
      · rw [if_neg h2, if_neg h2]
        exact ih

theorem lookupA_eraseA_self {α : Type} (l : List (String × α)) (key : String) :
    lookupA (eraseA l key) key = none := by
  induction l with
  | nil => rfl
  | cons kv rest ih =>
    obtain ⟨k2, w⟩ := kv
    by_cases hk : k2 = key
    · have hdrop : eraseA ((k2, w) :: rest) key = eraseA rest key := by
        simp [eraseA, List.filter_cons, hk]
      rw [hdrop]
      exact ih
    · have hkeep : eraseA ((k2, w) :: rest) key = (k2, w) :: eraseA rest key := by
        simp [eraseA, List.filter_cons, hk]
      rw [hkeep]
      simp only [lookupA]
      rw [if_neg hk]
      exact ih

theorem lookupA_eraseA_other {α : Type} (l : List (String × α)) (key key2 : String)
    (hne : key2 ≠ key) : lookupA (eraseA l key) key2 = lookupA l key2 := by
  induction l with
  | nil => rfl
  | cons kv rest ih =>
    obtain ⟨k2, w⟩ := kv
    by_cases hk : k2 = key
    · have hdrop : eraseA ((k2, w) :: rest) key = eraseA rest key := by
        simp [eraseA, List.filter_cons, hk]
      have hk2 : ¬ (k2 = key2) := fun h => hne (h ▸ hk)
      rw [hdrop, ih]
      simp only [lookupA]
      rw [if_neg hk2]
    · have hkeep : eraseA ((k2, w) :: rest) key = (k2, w) :: eraseA rest key := by
        simp [eraseA, List.filter_cons, hk]
      rw [hkeep]
      simp only [lookupA]
      by_cases h2 : k2 = key2
      · rw [if_pos h2, if_pos h2]
      · rw [if_neg h2, if_neg h2]
        exact ih

/-- One tool's cache record (cache.py lines 32-38): the LIBRARIES set and
the FILES path-to-md5 dictionary. -/
structure CacheElement where
  libraries : List String
  files : List (String × String)
deriving DecidableEq

/-- blank_cache_element (cache.py lines 35-38). -/
def blank_cache_element : CacheElement := ⟨[], []⟩

/-- The whole persisted cache dictionary, keyed by tool name. -/
abbrev Cache := List (String × CacheElement)

/-- A project source file as the cache and orchestrator see it: its path and
its project-assigned library. -/
structure SrcFile where
  path : String
  library : String
deriving DecidableEq

/-- FileCache.is_file_changed (cache.py lines 95-121): False when the file
does not exist on disk; True when the tool has no cache record; otherwise
True exactly when the recorded md5 differs from the file's current md5
(a missing FILES entry compares unequal to any digest). -/
def FileCache.is_file_changed (fs : FS) (cache : Cache) (f : SrcFile)
    (tool_name : String) : Bool :=
  match lookupA fs f.path with
  | none => false
  | some content =>
    match lookupA cache tool_name with
    | some elem =>
      let cached_md5 := lookupA elem.files f.path
      decide (¬ (cached_md5 = some (md5 content)))
    | none => true

/-- The cache after FileCache.add_file records a path with digest m for a
tool: ensure the tool record exists (blank if absent, cache.py lines
159-160) and assign FILES[path] = m (line 167). -/
def cache_with_file (cache : Cache) (tool path m : String) : Cache :=
  let elem := (lookupA cache tool).getD blank_cache_element
  updateA cache tool ⟨elem.libraries, updateA elem.files path m⟩

/-- FileCache.add_file (cache.py lines 153-175): reads the file (raising —
none — when it is missing) and records its md5 under the tool. -/
def FileCache.add_file (fs : FS) (cache : Cache) (f : SrcFile)
    (tool_name : String) : Option Cache :=
  (lookupA fs f.path).map (fun content => cache_with_file cache tool_name f.path (md5 content))

/-- FileCache.add_library (cache.py lines 143-151): ensure the tool record
exists and add the library name to its LIBRARIES set. -/
def FileCache.add_library (cache : Cache) (library tool_name : String) : Cache :=
  let elem := (lookupA cache tool_name).getD blank_cache_element
  updateA cache tool_name
    ⟨if library ∈ elem.libraries then elem.libraries else elem.libraries ++ [library],
      elem.files⟩

/-- FileCache.library_in_cache (cache.py lines 123-130). -/
def FileCache.library_in_cache (cache : Cache) (libname tool_name : String) : Bool :=
  match lookupA cache tool_name with
  | some elem => decide (libname ∈ elem.libraries)
  | none => false

/-- FileCache.remove_file (cache.py lines 177-189): ensure the tool record
exists and drop the FILES entry for the path if present. -/
def FileCache.remove_file (cache : Cache) (f : SrcFile) (tool_name : String) : Cache :=
  let elem := (lookupA cache tool_name).getD blank_cache_element
  updateA cache tool_name ⟨elem.libraries, eraseA elem.files f.path⟩

/-- The FILES entry one tool's record holds for one path. -/
def cacheFileEntry (cache : Cache) (tool path : String) : Option String :=
  match lookupA cache tool with
  | some elem => lookupA elem.files path
  | none => none

/-- Claim C5: for an existing file f, immediately after add_file(f, tool)
the call is_file_changed(f, tool) returns False; it keeps returning False as
long as the on-disk content of f is the recorded content, and returns True
as soon as the on-disk content differs. -/
theorem cache_round_trip (fs : FS) (cache cache2 : Cache) (f : SrcFile)
    (tool : String) (c : String)
    (hfs : lookupA fs f.path = some c)
    (hadd : FileCache.add_file fs cache f tool = some cache2) :
    FileCache.is_file_changed fs cache2 f tool = false
    ∧ (∀ fs2, lookupA fs2 f.path = some c →
        FileCache.is_file_changed fs2 cache2 f tool = false)
    ∧ (∀ fs2 c2, lookupA fs2 f.path = some c2 → c2 ≠ c →
        FileCache.is_file_changed fs2 cache2 f tool = true) := by
  unfold FileCache.add_file at hadd
  rw [hfs] at hadd
  have hadd2 : cache_with_file cache tool f.path (md5 c) = cache2 := Option.some.inj hadd
  subst hadd2
  have hlook : lookupA (cache_with_file cache tool f.path (md5 c)) tool
      = some ⟨((lookupA cache tool).getD blank_cache_element).libraries,
          updateA ((lookupA cache tool).getD blank_cache_element).files f.path (md5 c)⟩ := by
    unfold cache_with_file
    exact lookupA_updateA_self cache tool _
  have hentry : lookupA (updateA ((lookupA cache tool).getD blank_cache_element).files
      f.path (md5 c)) f.path = some (md5 c) :=
    lookupA_updateA_self _ f.path (md5 c)
  refine ⟨?_, ?_, ?_⟩
  · unfold FileCache.is_file_changed
    rw [hfs, hlook]
    simp [hentry]
  · intro fs2 hfs2
    unfold FileCache.is_file_changed
    rw [hfs2, hlook]
    simp [hentry]
  · intro fs2 c2 hfs2 hne
    unfold FileCache.is_file_changed
    rw [hfs2, hlook]
    simp only [hentry]
    apply decide_eq_true
    intro h
    injection h with h
    exact hne h.symm

/-- Concrete filesystem for the C5 witness. -/
def c5fs : FS := [("f.vhd", "v1")]

/-- Concrete file for the C5 witness. -/
def c5file : SrcFile := ⟨"f.vhd", "work"⟩

/-- The cache produced by add_file on the C5 witness input. -/
def c5cache2 : Cache := [("sim", ⟨[], [("f.vhd", "v1")]⟩)]

/-- Witness for claim C5 at a concrete input: right after add_file, the file
is reported unchanged. -/
theorem cache_round_trip_witness :
    FileCache.is_file_changed c5fs c5cache2 c5file "sim" = false :=
  (cache_round_trip c5fs [] c5cache2 c5file "sim" "v1" (by decide) (by decide)).1

/-- Python str.lower on one character, for the ASCII range library names
use: an upper-case ASCII letter maps 32 code points down, anything else is
unchanged. -/
def pyLowerChar (ch : Char) : Char :=
  if 65 ≤ ch.toNat ∧ ch.toNat ≤ 90 then Char.ofNat (ch.toNat + 32) else ch

/-- Python str.lower (libname.lower() at simulator.py line 125). -/
def pyLower (s : String) : String := ⟨s.data.map pyLowerChar⟩

/-- The name contains an upper-case ASCII letter. -/
def hasUpperAscii (s : String) : Bool :=
  s.data.any (fun ch => decide (65 ≤ ch.toNat ∧ ch.toNat ≤ 90))

/-- The state Simulator.compile_project threads through its file loop
(simulator.py lines 73-164): the in-memory cache, the cache as last
persisted by save_cache, the libraries physically present in the working
directory (library_exists, lines 66-71), the created_libraries list of this
run (line 85), the skipped and processed counters, and the trace of file
paths handed to the external compile capability. -/
structure SimState where
  cache : Cache
  persisted : Cache
  disk_libs : List String
  created_libraries : List String
  skipped : Nat
  count : Nat
  compiled : List String
deriving DecidableEq

/-- Simulator.library_exists (simulator.py lines 66-71): the library
directory exists under the working directory. -/
def library_exists (st : SimState) (libname : String) : Bool :=
  decide (libname ∈ st.disk_libs)

/-- The except handler of compile_project (simulator.py lines 143-149):
remove the in-flight file_object's cache entry, persist the cache, re-raise. -/
def compile_handler (st : SimState) (f : SrcFile) (tool : String) : SimState :=
  let c := FileCache.remove_file st.cache f tool
  { st with cache := c, persisted := c }

/-- One iteration of the compile loop of Simulator.compile_project
(simulator.py lines 91-142), with force = False (line 83), the external
compile capability abstracted as `ok` (an exception for file p exactly when
ok p = false) and exceptions modelled as Except.error carrying the state the
except handler (lines 143-149) leaves behind. Mirrors the source order:
count increment; isfile test (missing file raises FileNotFoundError, line
137, caught by the same handler); the skip test (unchanged hash and
physically existing library not freshly created this run, lines 98-110);
cache.add_file (line 111); library creation when the library is missing
from the cache or from disk (lines 114-125, registering the lower-cased
name in the cache); set_working_library is a no-op here; the compile call
(line 135). -/
def compile_step (fs : FS) (ok : String → Bool) (tool : String)
    (st0 : SimState) (f : SrcFile) : Except SimState SimState :=
  let st := { st0 with count := st0.count + 1 }
  match lookupA fs f.path with
  | some content =>
    if ¬ FileCache.is_file_changed fs st.cache f tool
        ∧ library_exists st f.library
        ∧ f.library ∉ st.created_libraries then
      Except.ok { st with skipped := st.skipped + 1 }
    else
      let st1 := { st with
        cache := cache_with_file st.cache tool f.path (md5 content) }
      let st2 :=
        if ¬ FileCache.library_in_cache st1.cache f.library tool
            ∨ ¬ library_exists st1 f.library then
          { st1 with
            created_libraries := st1.created_libraries ++ [f.library],
            disk_libs :=
              if f.library ∈ st1.disk_libs then st1.disk_libs
              else st1.disk_libs ++ [f.library],
            cache := FileCache.add_library st1.cache (pyLower f.library) tool }
        else st1
      if ok f.path then Except.ok { st2 with compiled := st2.compiled ++ [f.path] }
      else Except.error (compile_handler st2 f tool)
  | none => Except.error (compile_handler st f tool)

/-- The file loop of Simulator.compile_project (lines 91-142): stop at the
first exception, carrying the handler-adjusted state out. -/
def compile_loop (fs : FS) (ok : String → Bool) (tool : String) :
    List SrcFile → SimState → Except SimState SimState
  | [], st => Except.ok st
  | f :: rest, st =>
    match compile_step fs ok tool st f with
    | Except.ok st2 => compile_loop fs ok tool rest st2
    | Except.error st2 => Except.error st2

/-- Simulator.compile_project (simulator.py lines 73-164) over one ordered
file list: run the loop; on normal completion save the cache (line 158), on
an exception the handler has already saved it. -/
def Simulator.compile_project (fs : FS) (ok : String → Bool) (tool : String)
    (files : List SrcFile) (st0 : SimState) : Except SimState SimState :=
  match compile_loop fs ok tool files st0 with
  | Except.ok st => Except.ok { st with persisted := st.cache }
  | Except.error st => Except.error st

theorem cacheFileEntry_with_file_self (cache : Cache) (tool path m : String) :
    cacheFileEntry (cache_with_file cache tool path m) tool path = some m := by
  unfold cacheFileEntry cache_with_file
  rw [lookupA_updateA_self]
  exact lookupA_updateA_self _ path m

theorem cacheFileEntry_with_file_other (cache : Cache) (tool path m t p : String)
    (hne : p ≠ path) :
    cacheFileEntry (cache_with_file cache tool path m) t p = cacheFileEntry cache t p := by
  unfold cacheFileEntry cache_with_file
  by_cases ht : t = tool
  · subst ht
    rw [lookupA_updateA_self]
    cases hl : lookupA cache t with
    | some elem =>
      simp only [Option.getD_some]
      exact lookupA_updateA_other elem.files path p m (Ne.symm hne)
    | none =>
      simp only [Option.getD_none]
      show lookupA (updateA blank_cache_element.files path m) p = none
      rw [lookupA_updateA_other _ path p m (Ne.symm hne)]
      rfl
  · rw [lookupA_updateA_other cache tool t _ (Ne.symm ht)]

theorem cacheFileEntry_add_library (cache : Cache) (lib tool t p : String) :
    cacheFileEntry (FileCache.add_library cache lib tool) t p = cacheFileEntry cache t p := by
  unfold cacheFileEntry FileCache.add_library
  by_cases ht : t = tool
  · subst ht
    rw [lookupA_updateA_self]
    cases hl : lookupA cache t with
    | some elem => rfl
    | none => rfl
  · rw [lookupA_updateA_other cache tool t _ (Ne.symm ht)]

theorem cacheFileEntry_remove_file_self (cache : Cache) (f : SrcFile) (tool : String) :
    cacheFileEntry (FileCache.remove_file cache f tool) tool f.path = none := by
  unfold cacheFileEntry FileCache.remove_file
  rw [lookupA_updateA_self]
  exact lookupA_eraseA_self _ f.path

theorem cacheFileEntry_remove_file_other (cache : Cache) (f : SrcFile) (tool t p : String)
    (hne : p ≠ f.path) :
    cacheFileEntry (FileCache.remove_file cache f tool) t p = cacheFileEntry cache t p := by
  unfold cacheFileEntry FileCache.remove_file
  by_cases ht : t = tool
  · subst ht
    rw [lookupA_updateA_self]
    cases hl : lookupA cache t with
    | some elem =>
      simp only [Option.getD_some]
      exact lookupA_eraseA_other elem.files f.path p hne
    | none =>
      simp only [Option.getD_none]
      show lookupA (eraseA blank_cache_element.files f.path) p = none
      rw [lookupA_eraseA_other _ f.path p hne]
      rfl
  · rw [lookupA_updateA_other cache tool t _ (Ne.symm ht)]

theorem library_in_cache_with_file (cache : Cache) (tool path m lib t : String) :
    FileCache.library_in_cache (cache_with_file cache tool path m) lib t
      = FileCache.library_in_cache cache lib t := by
  unfold FileCache.library_in_cache cache_with_file
  by_cases ht : t = tool
  · subst ht
    rw [lookupA_updateA_self]
    cases hl : lookupA cache t with
    | some elem => rfl
    | none => rfl
  · rw [lookupA_updateA_other cache tool t _ (Ne.symm ht)]

theorem library_in_cache_remove_file (cache : Cache) (f : SrcFile) (tool lib t : String) :
    FileCache.library_in_cache (FileCache.remove_file cache f tool) lib t
      = FileCache.library_in_cache cache lib t := by
  unfold FileCache.library_in_cache FileCache.remove_file
  by_cases ht : t = tool
  · subst ht
    rw [lookupA_updateA_self]
    cases hl : lookupA cache t with
    | some elem => rfl
    | none => rfl
  · rw [lookupA_updateA_other cache tool t _ (Ne.symm ht)]

theorem library_in_cache_add_library_self (cache : Cache) (lib tool : String) :
    FileCache.library_in_cache (FileCache.add_library cache lib tool) lib tool = true := by
  unfold FileCache.library_in_cache FileCache.add_library
  rw [lookupA_updateA_self]
  show decide (lib ∈
    (if lib ∈ ((lookupA cache tool).getD blank_cache_element).libraries
      then ((lookupA cache tool).getD blank_cache_element).libraries
      else ((lookupA cache tool).getD blank_cache_element).libraries ++ [lib])) = true
  refine decide_eq_true ?_
  split
  · assumption
  · exact List.mem_append_right _ (by simp)

/-- Claim C6: within one compile_project run, once a library has been
(re)created — it is in created_libraries — every subsequent file assigned to
it that the loop processes successfully is compiled in that same run (the
skip counter does not move, the file path is handed to the external compile
capability) even if its content hash is unchanged, and its cache entry is
freshly recorded with the current content digest. -/
theorem created_library_forces_recompile
    (fs : FS) (ok : String → Bool) (tool : String)
    (l1 : List SrcFile) (f : SrcFile) (st0 st1 st2 : SimState)
    (_hrun : compile_loop fs ok tool l1 st0 = Except.ok st1)
    (hlib : f.library ∈ st1.created_libraries)
    (hstep : compile_step fs ok tool st1 f = Except.ok st2) :
    st2.skipped = st1.skipped
    ∧ st2.compiled = st1.compiled ++ [f.path]
    ∧ ∃ c, lookupA fs f.path = some c
        ∧ cacheFileEntry st2.cache tool f.path = some (md5 c) := by
  simp only [compile_step] at hstep
  split at hstep
  next content heq =>
    rw [if_neg (fun hcon => hcon.2.2 hlib)] at hstep
    split at hstep
    next hok =>
      have hst2 := Except.ok.inj hstep
      subst hst2
      refine ⟨?_, ?_, ⟨content, heq, ?_⟩⟩
      · split <;> simp
      · split <;> simp
      · split
        · show cacheFileEntry
            (FileCache.add_library (cache_with_file st1.cache tool f.path (md5 content))
              (pyLower f.library) tool) tool f.path = some (md5 content)
          rw [cacheFileEntry_add_library]
          exact cacheFileEntry_with_file_self st1.cache tool f.path (md5 content)
        · show cacheFileEntry (cache_with_file st1.cache tool f.path (md5 content))
            tool f.path = some (md5 content)
          exact cacheFileEntry_with_file_self st1.cache tool f.path (md5 content)
    next hok =>
      exact Except.noConfusion hstep
  next heq => exact Except.noConfusion hstep

/-- A file reported unchanged (and present on disk) has a recorded entry
equal to its current digest: is_file_changed only returns False through the
matching-digest branch (cache.py lines 112-114). -/
theorem is_file_changed_false_entry (fs : FS) (cache : Cache) (f : SrcFile)
    (tool c : String)
    (hfs : lookupA fs f.path = some c)
    (h : FileCache.is_file_changed fs cache f tool = false) :
    cacheFileEntry cache tool f.path = some (md5 c) := by
  unfold FileCache.is_file_changed at h
  rw [hfs] at h
  unfold cacheFileEntry
  cases hl : lookupA cache tool with
  | some elem =>
    rw [hl] at h
    have h2 : decide (¬ (lookupA elem.files f.path = some (md5 c))) = false := h
    exact not_not.mp (of_decide_eq_false h2)
  | none =>
    rw [hl] at h
    exact Bool.noConfusion h

/-- A successful compile_step leaves a FILES entry for its own file: either
the skip branch found the recorded digest equal to the current one, or
add_file just recorded it. -/
theorem compile_step_ok_entry_self (fs : FS) (ok : String → Bool) (tool : String)
    (st0 st2 : SimState) (f : SrcFile)
    (hstep : compile_step fs ok tool st0 f = Except.ok st2) :
    ∃ hsh, cacheFileEntry st2.cache tool f.path = some hsh := by
  simp only [compile_step] at hstep
  split at hstep
  next content heq =>
    split at hstep
    next hskip =>
      have hst2 := Except.ok.inj hstep
      subst hst2
      have hch : FileCache.is_file_changed fs st0.cache f tool = false :=
        Bool.eq_false_iff.mpr hskip.1
      exact ⟨md5 content, is_file_changed_false_entry fs st0.cache f tool content heq hch⟩
    next hnoskip =>
      split at hstep
      next hok =>
        have hst2 := Except.ok.inj hstep
        subst hst2
        refine ⟨md5 content, ?_⟩
        split
        · show cacheFileEntry
            (FileCache.add_library (cache_with_file st0.cache tool f.path (md5 content))
              (pyLower f.library) tool) tool f.path = some (md5 content)
          rw [cacheFileEntry_add_library]
          exact cacheFileEntry_with_file_self st0.cache tool f.path (md5 content)
        · show cacheFileEntry (cache_with_file st0.cache tool f.path (md5 content))
            tool f.path = some (md5 content)
          exact cacheFileEntry_with_file_self st0.cache tool f.path (md5 content)
      next hok =>
        exact Except.noConfusion hstep
  next heq => exact Except.noConfusion hstep

/-- A successful compile_step never deletes a FILES entry: an existing entry
survives (possibly overwritten for its own path). -/
theorem compile_step_ok_entry_mono (fs : FS) (ok : String → Bool) (tool : String)
    (st0 st2 : SimState) (f : SrcFile) (p hsh : String)
    (hstep : compile_step fs ok tool st0 f = Except.ok st2)
    (hp : cacheFileEntry st0.cache tool p = some hsh) :
    ∃ hsh2, cacheFileEntry st2.cache tool p = some hsh2 := by
  by_cases hpf : p = f.path
  · subst hpf
    exact compile_step_ok_entry_self fs ok tool st0 st2 f hstep
  · refine ⟨hsh, ?_⟩
    simp only [compile_step] at hstep
    split at hstep
    next content heq =>
      split at hstep
      next hskip =>
        have hst2 := Except.ok.inj hstep
        subst hst2
        exact hp
      next hnoskip =>
        split at hstep
        next hok =>
          have hst2 := Except.ok.inj hstep
          subst hst2
          split
          · show cacheFileEntry
              (FileCache.add_library (cache_with_file st0.cache tool f.path (md5 content))
                (pyLower f.library) tool) tool p = some hsh
            rw [cacheFileEntry_add_library, cacheFileEntry_with_file_other _ _ _ _ _ _ hpf]
            exact hp
          · show cacheFileEntry (cache_with_file st0.cache tool f.path (md5 content))
              tool p = some hsh
            rw [cacheFileEntry_with_file_other _ _ _ _ _ _ hpf]
            exact hp
        next hok =>
          exact Except.noConfusion hstep
    next heq => exact Except.noConfusion hstep

/-- A successful compile_loop never deletes a FILES entry. -/
theorem compile_loop_entry_mono (fs : FS) (ok : String → Bool) (tool : String) :
    ∀ (l : List SrcFile) (st st1 : SimState) (p hsh : String),
      compile_loop fs ok tool l st = Except.ok st1 →
      cacheFileEntry st.cache tool p = some hsh →
      ∃ hsh2, cacheFileEntry st1.cache tool p = some hsh2 := by
  intro l
  induction l with
  | nil =>
    intro st st1 p hsh h hp
    have hst := Except.ok.inj h
    subst hst
    exact ⟨hsh, hp⟩
  | cons f rest ih =>
    intro st st1 p hsh h hp
    simp only [compile_loop] at h
    cases hstep : compile_step fs ok tool st f with
    | ok st2 =>
      rw [hstep] at h
      obtain ⟨hsh2, hp2⟩ := compile_step_ok_entry_mono fs ok tool st st2 f p hsh hstep hp
      exact ih st2 st1 p hsh2 h hp2
    | error st2 =>
      rw [hstep] at h
      exact Except.noConfusion h

/-- After a successful compile_loop over a file list, every file of the list
has a FILES entry in the cache (skipped files had a matching entry, compiled
files were freshly recorded, and later steps never delete entries). -/
theorem compile_loop_entries_present (fs : FS) (ok : String → Bool) (tool : String) :
    ∀ (l : List SrcFile) (st st1 : SimState),
      compile_loop fs ok tool l st = Except.ok st1 →
      ∀ g, g ∈ l → ∃ hsh, cacheFileEntry st1.cache tool g.path = some hsh := by
  intro l
  induction l with
  | nil =>
    intro st st1 h g hg
    cases hg
  | cons f rest ih =>
    intro st st1 h g hg
    simp only [compile_loop] at h
    cases hstep : compile_step fs ok tool st f with
    | ok st2 =>
      rw [hstep] at h
      cases hg with
      | head =>
        obtain ⟨hsh, hp⟩ := compile_step_ok_entry_self fs ok tool st st2 f hstep
        exact compile_loop_entry_mono fs ok tool rest st2 st1 f.path hsh h hp
      | tail _ hmem =>
        exact ih st2 st1 h g hmem
    | error st2 =>
      rw [hstep] at h
      exact Except.noConfusion h

theorem compile_handler_entry_self (st : SimState) (f : SrcFile) (tool : String) :
    cacheFileEntry (compile_handler st f tool).cache tool f.path = none := by
  show cacheFileEntry (FileCache.remove_file st.cache f tool) tool f.path = none
  exact cacheFileEntry_remove_file_self st.cache f tool

theorem compile_handler_entry_other (st : SimState) (f : SrcFile) (tool t p : String)
    (hne : p ≠ f.path) :
    cacheFileEntry (compile_handler st f tool).cache t p = cacheFileEntry st.cache t p := by
  show cacheFileEntry (FileCache.remove_file st.cache f tool) t p = cacheFileEntry st.cache t p
  exact cacheFileEntry_remove_file_other st.cache f tool t p hne

/-- Claim C7: when the external compile capability raises on file F (F
exists on disk, so the step's failure is the compile call), the state the
except handler leaves behind has no cache entry for F, the cache was
persisted before re-raising, entries at every other path are untouched, and
every file processed earlier in the same run still has its entry. -/
theorem compile_failure_removes_entry
    (fs : FS) (ok : String → Bool) (tool : String)
    (l1 : List SrcFile) (F : SrcFile) (st0 st1 stE : SimState) (c : String)
    (hrun : compile_loop fs ok tool l1 st0 = Except.ok st1)
    (hfs : lookupA fs F.path = some c)
    (hstep : compile_step fs ok tool st1 F = Except.error stE) :
    cacheFileEntry stE.cache tool F.path = none
    ∧ stE.persisted = stE.cache
    ∧ (∀ t p, p ≠ F.path → cacheFileEntry stE.cache t p = cacheFileEntry st1.cache t p)
    ∧ (∀ g, g ∈ l1 → g.path ≠ F.path →
        ∃ hsh, cacheFileEntry stE.cache tool g.path = some hsh) := by
  simp only [compile_step] at hstep
  split at hstep
  next content heq =>
    split at hstep
    next hskip => exact Except.noConfusion hstep
    next hnoskip =>
      split at hstep
      next hok => exact Except.noConfusion hstep
      next hok =>
        have hstE := Except.error.inj hstep
        refine ⟨?_, ?_, ?_, ?_⟩
        · rw [← hstE]
          exact compile_handler_entry_self _ F tool
        · rw [← hstE]
          rfl
        · intro t p hne
          rw [← hstE, compile_handler_entry_other _ F tool t p hne]
          split
          · show cacheFileEntry
              (FileCache.add_library (cache_with_file st1.cache tool F.path (md5 content))
                (pyLower F.library) tool) t p = cacheFileEntry st1.cache t p
            rw [cacheFileEntry_add_library]
            exact cacheFileEntry_with_file_other st1.cache tool F.path (md5 content) t p hne
          · show cacheFileEntry (cache_with_file st1.cache tool F.path (md5 content)) t p
              = cacheFileEntry st1.cache t p
            exact cacheFileEntry_with_file_other st1.cache tool F.path (md5 content) t p hne
        · intro g hg hne
          obtain ⟨hsh, hp⟩ := compile_loop_entries_present fs ok tool l1 st0 st1 hrun g hg
          refine ⟨hsh, ?_⟩
          rw [← hstE, compile_handler_entry_other _ F tool tool g.path hne]
          split
          · show cacheFileEntry
              (FileCache.add_library (cache_with_file st1.cache tool F.path (md5 content))
                (pyLower F.library) tool) tool g.path = some hsh
            rw [cacheFileEntry_add_library]
            rw [cacheFileEntry_with_file_other st1.cache tool F.path (md5 content) tool g.path hne]
            exact hp
          · show cacheFileEntry (cache_with_file st1.cache tool F.path (md5 content))
              tool g.path = some hsh
            rw [cacheFileEntry_with_file_other st1.cache tool F.path (md5 content) tool g.path hne]
            exact hp
  next heq =>
    rw [hfs] at heq
    exact Option.noConfusion heq

/-- Filesystem for the C6 witness. -/
def c6fs : FS := [("a.vhd", "va"), ("b.vhd", "vb")]

/-- External compile capability for the C6 witness: always succeeds. -/
def c6ok : String → Bool := fun _ => true

/-- First project file for the C6 witness (changed, triggers the library
re-creation). -/
def c6a : SrcFile := ⟨"a.vhd", "work"⟩

/-- Second project file for the C6 witness (individually unchanged). -/
def c6b : SrcFile := ⟨"b.vhd", "work"⟩

/-- Initial state for the C6 witness: b.vhd already cached with its current
digest, the work library on disk but missing from the cache record. -/
def c6st0 : SimState :=
  ⟨[("sim", ⟨[], [("b.vhd", "vb")]⟩)], [("sim", ⟨[], [("b.vhd", "vb")]⟩)],
    ["work"], [], 0, 0, []⟩

/-- State after compiling a.vhd in the C6 witness run: the work library has
been re-created. -/
def c6st1 : SimState :=
  ⟨[("sim", ⟨["work"], [("b.vhd", "vb"), ("a.vhd", "va")]⟩)],
    [("sim", ⟨[], [("b.vhd", "vb")]⟩)], ["work"], ["work"], 0, 1, ["a.vhd"]⟩

/-- State after the step on b.vhd in the C6 witness run: compiled although
unchanged. -/
def c6st2 : SimState :=
  ⟨[("sim", ⟨["work"], [("b.vhd", "vb"), ("a.vhd", "va")]⟩)],
    [("sim", ⟨[], [("b.vhd", "vb")]⟩)], ["work"], ["work"], 0, 2, ["a.vhd", "b.vhd"]⟩

/-- Witness for claim C6 at a concrete input: after a.vhd re-created the
work library, the individually unchanged b.vhd is not skipped, is handed to
the compiler, and its entry is freshly recorded. -/
theorem created_library_forces_recompile_witness :
    c6st2.skipped = c6st1.skipped
    ∧ c6st2.compiled = c6st1.compiled ++ [c6b.path]
    ∧ ∃ c, lookupA c6fs c6b.path = some c
        ∧ cacheFileEntry c6st2.cache "sim" c6b.path = some (md5 c) :=
  created_library_forces_recompile c6fs c6ok "sim" [c6a] c6b c6st0 c6st1 c6st2
    (by rfl) (by decide) (by rfl)

/-- Filesystem for the C7 witness. -/
def c7fs : FS := [("a.vhd", "va"), ("b.vhd", "vb")]

/-- External compile capability for the C7 witness: fails on b.vhd. -/
def c7ok : String → Bool := fun p => decide (p = "a.vhd")

/-- First project file for the C7 witness: compiles fine. -/
def c7a : SrcFile := ⟨"a.vhd", "work"⟩

/-- Second project file for the C7 witness: its compile raises. -/
def c7b : SrcFile := ⟨"b.vhd", "work"⟩

/-- Empty initial state for the C7 witness. -/
def c7st0 : SimState := ⟨[], [], [], [], 0, 0, []⟩

/-- State after compiling a.vhd in the C7 witness run. -/
def c7st1 : SimState :=
  ⟨[("sim", ⟨["work"], [("a.vhd", "va")]⟩)], [], ["work"], ["work"], 0, 1, ["a.vhd"]⟩

/-- State the except handler leaves after the compile of b.vhd raises:
b.vhd's entry removed and the cache persisted. -/
def c7stE : SimState :=
  ⟨[("sim", ⟨["work"], [("a.vhd", "va")]⟩)], [("sim", ⟨["work"], [("a.vhd", "va")]⟩)],
    ["work"], ["work"], 0, 2, ["a.vhd"]⟩

/-- Witness for claim C7 at a concrete input: after the simulated compile
failure on b.vhd, its cache entry is gone, the cache is persisted, and the
entry of the earlier a.vhd remains. -/
theorem compile_failure_removes_entry_witness :
    cacheFileEntry c7stE.cache "sim" c7b.path = none
    ∧ c7stE.persisted = c7stE.cache := by
  have h := compile_failure_removes_entry c7fs c7ok "sim" [c7a] c7b c7st0 c7st1 c7stE
    "vb" (by rfl) (by decide) (by rfl)
  exact ⟨h.1, h.2.1⟩

theorem char_ofNat_plus32 : ∀ n, n < 91 → 65 ≤ n → (Char.ofNat (n + 32)).toNat = n + 32 := by
  decide

theorem pyLowerChar_ne (ch : Char) (h : 65 ≤ ch.toNat ∧ ch.toNat ≤ 90) :
    pyLowerChar ch ≠ ch := by
  intro he
  have ht : (pyLowerChar ch).toNat = ch.toNat + 32 := by
    unfold pyLowerChar
    rw [if_pos h]
    exact char_ofNat_plus32 ch.toNat (Nat.lt_succ_of_le h.2) h.1
  rw [he] at ht
  omega

theorem map_eq_self_mem {α : Type} (f : α → α) :
    ∀ (l : List α), l.map f = l → ∀ x, x ∈ l → f x = x := by
  intro l
  induction l with
  | nil => intro _ x hx; cases hx
  | cons a rest ih =>
    intro h x hx
    simp only [List.map_cons, List.cons.injEq] at h
    cases hx with
    | head => exact h.1
    | tail _ hmem => exact ih h.2 x hmem

/-- A name containing an upper-case ASCII letter is changed by str.lower. -/
theorem pyLower_ne_of_upper (s : String) (h : hasUpperAscii s = true) :
    pyLower s ≠ s := by
  intro he
  have hdata : s.data.map pyLowerChar = s.data := congrArg String.data he
  obtain ⟨ch, hmem, hup⟩ := List.any_eq_true.mp h
  exact pyLowerChar_ne ch (of_decide_eq_true hup)
    (map_eq_self_mem pyLowerChar s.data hdata ch hmem)

/-- Every library name the cache holds is fixed by str.lower — the state any
cache reaches when libraries are only ever registered through
compile_project, which always registers libname.lower() (simulator.py line
125). -/
def CacheLibsLower (cache : Cache) : Prop :=
  ∀ pair, pair ∈ cache → ∀ lib, lib ∈ pair.2.libraries → pyLower lib = lib

theorem lookupA_mem {α : Type} :
    ∀ (l : List (String × α)) (k : String) (v : α), lookupA l k = some v → (k, v) ∈ l := by
  intro l
  induction l with
  | nil => intro k v h; exact Option.noConfusion h
  | cons kv rest ih =>
    intro k v h
    obtain ⟨k2, w⟩ := kv
    simp only [lookupA] at h
    by_cases hk : k2 = k
    · rw [if_pos hk] at h
      have hv := Option.some.inj h
      subst hv
      subst hk
      exact List.mem_cons_self _ _
    · rw [if_neg hk] at h
      exact List.mem_cons_of_mem _ (ih k v h)

/-- With only lower-cased names in the cache, library_in_cache is False for
every name containing an upper-case letter — the query at simulator.py line
115 uses the project-declared name unchanged while registration at line 125
lower-cases it. -/
theorem library_in_cache_upper_false (cache : Cache) (lib tool : String)
    (hlow : CacheLibsLower cache) (hup : hasUpperAscii lib = true) :
    FileCache.library_in_cache cache lib tool = false := by
  unfold FileCache.library_in_cache
  cases hl : lookupA cache tool with
  | some elem =>
    refine decide_eq_false ?_
    intro hmem
    exact pyLower_ne_of_upper lib hup
      (hlow (tool, elem) (lookupA_mem cache tool elem hl) lib hmem)
  | none => rfl

theorem compile_handler_created (st : SimState) (f : SrcFile) (tool : String) :
    (compile_handler st f tool).created_libraries = st.created_libraries := rfl

theorem compile_handler_skipped (st : SimState) (f : SrcFile) (tool : String) :
    (compile_handler st f tool).skipped = st.skipped := rfl

theorem compile_handler_lic (st : SimState) (f : SrcFile) (tool lib t : String) :
    FileCache.library_in_cache (compile_handler st f tool).cache lib t
      = FileCache.library_in_cache st.cache lib t := by
  show FileCache.library_in_cache (FileCache.remove_file st.cache f tool) lib t
    = FileCache.library_in_cache st.cache lib t
  exact library_in_cache_remove_file st.cache f tool lib t

/-- Claim C10 (amended): compile_project registers created libraries in the
cache under the lower-cased name (add_library(libname.lower()), simulator.py
line 125) but queries with the project-declared name unchanged
(library_in_cache(libname), line 115). Hence for a library name containing
an upper-case letter the query returns False whenever the cache holds only
lower-cased names, and whenever a file assigned to such a library is not
skipped (here: its content changed), the step re-creates the library — it
joins created_libraries, which forces recompilation of every subsequent
file of that library — and registers only the lower-cased name. -/
theorem upper_library_recreated_when_compiled
    (fs : FS) (ok : String → Bool) (tool : String) (st : SimState) (f : SrcFile) (c : String)
    (hlow : CacheLibsLower st.cache)
    (hup : hasUpperAscii f.library = true)
    (hfs : lookupA fs f.path = some c)
    (hch : FileCache.is_file_changed fs st.cache f tool = true) :
    FileCache.library_in_cache st.cache f.library tool = false
    ∧ ∃ st2, (compile_step fs ok tool st f = Except.ok st2
          ∨ compile_step fs ok tool st f = Except.error st2)
        ∧ f.library ∈ st2.created_libraries
        ∧ st2.skipped = st.skipped
        ∧ FileCache.library_in_cache st2.cache (pyLower f.library) tool = true := by
  have hfalse := library_in_cache_upper_false st.cache f.library tool hlow hup
  refine ⟨hfalse, ?_⟩
  cases hres : compile_step fs ok tool st f with
  | ok st2 =>
    refine ⟨st2, Or.inl rfl, ?_⟩
    simp only [compile_step] at hres
    split at hres
    next content heq =>
      split at hres
      next hskip => exact absurd hch hskip.1
      next hnoskip =>
        split at hres
        next hok =>
          have hst2 := Except.ok.inj hres
          subst hst2
          refine ⟨?_, ?_, ?_⟩
          · split
            next hrec =>
              show f.library ∈ st.created_libraries ++ [f.library]
              exact List.mem_append_right _ (by simp)
            next hrec =>
              exact absurd (Or.inl (fun hl => by
                rw [library_in_cache_with_file] at hl
                rw [hfalse] at hl
                exact Bool.noConfusion hl)) hrec
          · split <;> simp
          · split
            next hrec =>
              show FileCache.library_in_cache
                (FileCache.add_library (cache_with_file st.cache tool f.path (md5 content))
                  (pyLower f.library) tool) (pyLower f.library) tool = true
              exact library_in_cache_add_library_self _ (pyLower f.library) tool
            next hrec =>
              exact absurd (Or.inl (fun hl => by
                rw [library_in_cache_with_file] at hl
                rw [hfalse] at hl
                exact Bool.noConfusion hl)) hrec
        next hok => exact Except.noConfusion hres
    next heq =>
      rw [hfs] at heq
      exact Option.noConfusion heq
  | error st2 =>
    refine ⟨st2, Or.inr rfl, ?_⟩
    simp only [compile_step] at hres
    split at hres
    next content heq =>
      split at hres
      next hskip => exact Except.noConfusion hres
      next hnoskip =>
        split at hres
        next hok => exact Except.noConfusion hres
        next hok =>
          have hst2 := Except.error.inj hres
          refine ⟨?_, ?_, ?_⟩
          · rw [← hst2, compile_handler_created]
            split
            next hrec =>
              show f.library ∈ st.created_libraries ++ [f.library]
              exact List.mem_append_right _ (by simp)
            next hrec =>
              exact absurd (Or.inl (fun hl => by
                rw [library_in_cache_with_file] at hl
                rw [hfalse] at hl
                exact Bool.noConfusion hl)) hrec
          · rw [← hst2, compile_handler_skipped]
            split <;> simp
          · rw [← hst2, compile_handler_lic]
            split
            next hrec =>
              show FileCache.library_in_cache
                (FileCache.add_library (cache_with_file st.cache tool f.path (md5 content))
                  (pyLower f.library) tool) (pyLower f.library) tool = true
              exact library_in_cache_add_library_self _ (pyLower f.library) tool
            next hrec =>
              exact absurd (Or.inl (fun hl => by
                rw [library_in_cache_with_file] at hl
                rw [hfalse] at hl
                exact Bool.noConfusion hl)) hrec
    next heq =>
      rw [hfs] at heq
      exact Option.noConfusion heq

/-- Filesystem for the C10 scenario. -/
def c10fs : FS := [("m.vhd", "v1")]

/-- External compile capability for the C10 scenario: always succeeds. -/
def c10ok : String → Bool := fun _ => true

/-- A file assigned to a library whose project-declared name has an
upper-case letter. -/
def c10file : SrcFile := ⟨"m.vhd", "Mix"⟩

/-- Empty state before the first C10 run. -/
def c10st0 : SimState := ⟨[], [], [], [], 0, 0, []⟩

/-- The cache after the first C10 run: the library registered lower-cased. -/
def c10cache : Cache := [("sim", ⟨["mix"], [("m.vhd", "v1")]⟩)]

/-- End state of the first C10 run. -/
def c10st1 : SimState := ⟨c10cache, c10cache, ["Mix"], ["Mix"], 0, 1, ["m.vhd"]⟩

/-- Start state of the second C10 run: cache and disk libraries persist,
per-run fields reset. -/
def c10st0run2 : SimState := ⟨c10cache, c10cache, ["Mix"], [], 0, 0, []⟩

/-- End state of the second C10 run: the unchanged file is skipped. -/
def c10st2 : SimState := ⟨c10cache, c10cache, ["Mix"], [], 1, 1, []⟩

/-- Claim C10 (counterexample): on the second run over the unchanged file of
library Mix, compile_project skips the file — nothing is compiled and the
library is not re-created — contradicting the claim that such a library is
re-created and all its files recompiled on every run: the skip test
(simulator.py lines 98-110) fires on the unchanged hash and physically
existing library before the mis-cased cache query is ever reached. -/
theorem upper_library_recreated_cex :
    Simulator.compile_project c10fs c10ok "sim" [c10file] c10st0 = Except.ok c10st1
    ∧ Simulator.compile_project c10fs c10ok "sim" [c10file] c10st0run2 = Except.ok c10st2
    ∧ c10st2.compiled = [] ∧ c10st2.created_libraries = [] ∧ c10st2.skipped = 1 :=
  ⟨by rfl, by rfl, rfl, rfl, rfl⟩

/-- Filesystem for the C10 witness: the file content has changed. -/
def c10fsw : FS := [("m.vhd", "v2")]

/-- Witness for claim C10 (amended) at a concrete input: with only the
lower-cased name in the cache, the query for the mixed-case name is False. -/
theorem upper_library_recreated_witness :
    FileCache.library_in_cache c10st0run2.cache "Mix" "sim" = false :=
  (upper_library_recreated_when_compiled c10fsw c10ok "sim" c10st0run2 c10file "v2"
    (by unfold CacheLibsLower; decide) (by decide) (by decide) (by decide)).1
